import Mathlib

/-!
# Verification of the tasbot `playfun` search core

Shallow embedding of the weighted-objective collection
(`weighted-objectives.cc`), the motif reweighting policy and the player
search helpers (`playfun.cc`).  C++ `double` arithmetic is modelled over
`ℚ`; machine integers are `ℕ`/`ℤ`; a value that C++ computes as a
division by zero (an IEEE `NaN`, not a real number) is modelled as
`Option.none`.
-/

namespace Tasbot

/-- A console memory snapshot, `vector<uint8>` of length 2048 in the
source, modelled as an unbounded index function (only indices named by
an objective tuple are ever read). -/
abbrev Mem := ℕ → ℕ

/-- One entry of `WeightedObjectives::weighted`: the ordered index
tuple (map key), its `Info::weight` and `Info::observations` (the
sorted history of projections). -/
structure WObjective where
  indices : List ℕ
  weight : ℚ
  observations : List (List ℕ)
deriving DecidableEq

/-- The projection of a memory under an objective tuple: the loop in
`WeightedObjectives::Observe` / `GetNormalizedValue` pushing
`memory[*i]` for each index of the tuple. -/
def projValues (indices : List ℕ) (mem : Mem) : List ℕ :=
  indices.map fun i => mem i

/-- `Order` from `weighted-objectives.cc` (`RADIX = 2`): iterate over
the tuple from the last index to the first, `val += mem2[i] - mem1[i];
val /= 2` starting from `val = 0`.  The byte difference is the signed
`int` promotion of the two `uint8` reads. -/
def Order (mem1 mem2 : Mem) (order : List ℕ) : ℚ :=
  order.reverse.foldl (fun val i => (val + ((mem2 i : ℚ) - (mem1 i : ℚ))) / 2) 0

/-- `WeightedObjectives::Evaluate`: `score += weight * Order(mem1,
mem2, objective)` over the whole collection, starting from `0`. -/
def Evaluate (objs : List WObjective) (mem1 mem2 : Mem) : ℚ :=
  objs.foldl (fun score o => score + o.weight * Order mem1 mem2 o.indices) 0

/-- Folding an accumulating sum is the sum of the mapped list. -/
theorem foldl_add_eq_sum (f : WObjective → ℚ) (objs : List WObjective) (c : ℚ) :
    objs.foldl (fun score o => score + f o) c = c + (objs.map f).sum := by
  induction objs generalizing c with
  | nil => simp
  | cons o rest ih => simp [ih, add_assoc]

/-- First test memory of spec scenario 2: `a = {0:10, 1:20}`. -/
def memA : Mem := fun i => if i = 0 then 10 else if i = 1 then 20 else 0

/-- Second test memory of spec scenario 2: `b = {0:10, 1:24}`. -/
def memB : Mem := fun i => if i = 0 then 10 else if i = 1 then 24 else 0

/-- C2: `evaluate(a,b)` is the weight-weighted sum of the per-objective
radix-2 discounted folds (taken from the last index of the tuple to the
first, starting at 0), and on the single objective `[0,1]` with
`a = {0:10, 1:20}`, `b = {0:10, 1:24}` the rank is exactly `1`, and
exactly `-1` with the two memories swapped. -/
theorem c2_evaluate_radix :
    (∀ (objs : List WObjective) (a b : Mem),
      Evaluate objs a b =
        (objs.map fun o => o.weight * Order a b o.indices).sum) ∧
    Order memA memB [0, 1] = 1 ∧
    Order memB memA [0, 1] = -1 := by
  refine ⟨fun objs a b => ?_, ?_, ?_⟩
  · simpa using foldl_add_eq_sum (fun o => o.weight * Order a b o.indices) objs 0
  · norm_num [Order, memA, memB]
  · norm_num [Order, memA, memB]

/-- Default objective used with `List.getD`. -/
def dObj : WObjective := ⟨[], 0, []⟩

/-- The body of the loop in `WeightedObjectives::Observe` for one
objective: if the history holds fewer than 64 projections, append a
slot, otherwise overwrite slot `rand() % size`; store the projection of
the memory there and re-sort the history ascending (the `std::sort`
with `vector<uint8>` lexicographic `operator<`). -/
def observeOne (r : ℕ) (mem : Mem) (o : WObjective) : WObjective :=
  let proj := projValues o.indices mem
  let size := o.observations.length
  let obs := if size < 64 then o.observations ++ [proj]
             else o.observations.set (r % size) proj
  { o with observations := List.insertionSort (· ≤ ·) obs }

/-- `WeightedObjectives::Observe`: apply `observeOne` to every
objective of the collection.  The global `rand()` stream is abstracted
as one draw per objective (`rand i` for the `i`-th objective); the draw
is only consumed in the full-history case. -/
def Observe (rand : ℕ → ℕ) (mem : Mem) : List WObjective → List WObjective
  | [] => []
  | o :: rest => observeOne (rand 0) mem o :: Observe (fun i => rand (i + 1)) mem rest

theorem observeOne_sorted (r : ℕ) (mem : Mem) (o : WObjective) :
    List.Sorted (· ≤ ·) (observeOne r mem o).observations :=
  List.sorted_insertionSort _ _

theorem observeOne_length (r : ℕ) (mem : Mem) (o : WObjective) :
    (observeOne r mem o).observations.length =
      if o.observations.length < 64 then o.observations.length + 1
      else o.observations.length := by
  unfold observeOne
  by_cases h : o.observations.length < 64
  · simp [h, List.length_insertionSort]
  · simp [h, List.length_insertionSort]

theorem observeOne_perm_small (r : ℕ) (mem : Mem) (o : WObjective)
    (h : o.observations.length < 64) :
    List.Perm (observeOne r mem o).observations
      (o.observations ++ [projValues o.indices mem]) := by
  unfold observeOne
  simp only [h, if_pos]
  exact List.perm_insertionSort _ _

theorem observeOne_perm_full (r : ℕ) (mem : Mem) (o : WObjective)
    (h : o.observations.length = 64) :
    List.Perm (observeOne r mem o).observations
      (o.observations.set (r % 64) (projValues o.indices mem)) := by
  unfold observeOne
  simp only [h]
  norm_num
  exact List.perm_insertionSort _ _

theorem Observe_getD (rand : ℕ → ℕ) (mem : Mem) (objs : List WObjective)
    (i : ℕ) (hi : i < objs.length) :
    (Observe rand mem objs).getD i dObj =
      observeOne (rand i) mem (objs.getD i dObj) := by
  induction objs generalizing i rand with
  | nil => simp at hi
  | cons o rest ih =>
    cases i with
    | zero => simp [Observe]
    | succ j =>
      simp only [Observe, List.getD_cons_succ]
      exact ih (fun k => rand (k + 1)) j (by simpa using hi)

/-- C7: after `observe(mem)`, the `i`-th objective's history is sorted
ascending and holds at most 64 entries; a history with fewer than 64
entries grows by exactly one entry (the projection of `mem`), and a
full history of 64 entries keeps its size, slot `rand i % 64` having
been overwritten by the projection. -/
theorem c7_observe_history (rand : ℕ → ℕ) (mem : Mem) (objs : List WObjective)
    (i : ℕ) (hi : i < objs.length)
    (hlen : (objs.getD i dObj).observations.length ≤ 64) :
    List.Sorted (· ≤ ·) (((Observe rand mem objs).getD i dObj).observations) ∧
    ((Observe rand mem objs).getD i dObj).observations.length ≤ 64 ∧
    ((objs.getD i dObj).observations.length < 64 →
      List.Perm ((Observe rand mem objs).getD i dObj).observations
        ((objs.getD i dObj).observations ++
          [projValues (objs.getD i dObj).indices mem])) ∧
    ((objs.getD i dObj).observations.length = 64 →
      ((Observe rand mem objs).getD i dObj).observations.length = 64 ∧
      List.Perm ((Observe rand mem objs).getD i dObj).observations
        ((objs.getD i dObj).observations.set (rand i % 64)
          (projValues (objs.getD i dObj).indices mem))) := by
  rw [Observe_getD rand mem objs i hi]
  refine ⟨observeOne_sorted _ _ _, ?_, ?_, ?_⟩
  · rw [observeOne_length]
    split
    · omega
    · omega
  · exact fun h => observeOne_perm_small _ _ _ h
  · intro h
    refine ⟨?_, observeOne_perm_full _ _ _ h⟩
    rw [observeOne_length, h]
    norm_num

/-- Witness for C7 at a concrete collection: one objective `[0]` with a
single prior observation `[5]`, memory constantly 7. -/
theorem c7_observe_history_witness :
    0 < ([⟨[0], 1, [[5]]⟩] : List WObjective).length ∧
    (([⟨[0], 1, [[5]]⟩] : List WObjective).getD 0 dObj).observations.length ≤ 64 ∧
    List.Sorted (· ≤ ·)
      (((Observe (fun _ => 0) (fun _ => 7) [⟨[0], 1, [[5]]⟩]).getD 0 dObj).observations) := by
  refine ⟨by decide, by decide, ?_⟩
  exact (c7_observe_history (fun _ => 0) (fun _ => 7) [⟨[0], 1, [[5]]⟩] 0
    (by decide) (by decide)).1

/-- `MOTIF_ALPHA` from `playfun.cc` (0.8). -/
def MOTIF_ALPHA : ℚ := 8 / 10

/-- `MOTIF_MAX_FRAC` from `playfun.cc` (0.1). -/
def MOTIF_MAX_FRAC : ℚ := 1 / 10

/-- `MOTIF_MIN_FRAC` from `playfun.cc` (0.00001). -/
def MOTIF_MIN_FRAC : ℚ := 1 / 100000

/-- The motif reweighting branch at the end of
`PlayFun::TakeBestAmong`: on a rise of the normalized value divide the
weight by `MOTIF_ALPHA` unless that would reach `MOTIF_MAX_FRAC` of the
total weight; otherwise multiply it by `MOTIF_ALPHA` unless that would
fall to `MOTIF_MIN_FRAC` of the total weight or below. -/
def MotifReweight (total weight oldval newval : ℚ) : ℚ :=
  if oldval < newval then
    let d := weight / MOTIF_ALPHA
    if d / total < MOTIF_MAX_FRAC then d else weight
  else
    let d := weight * MOTIF_ALPHA
    if MOTIF_MIN_FRAC < d / total then d else weight

/-- C5: on a commit that did not raise the normalized value, the motif
weight `w` becomes `MOTIF_ALPHA * w` exactly when `MOTIF_ALPHA * w /
total` exceeds `MOTIF_MIN_FRAC`, and is left unchanged otherwise; in
particular a motif at `total / 1000000` is not reduced further. -/
theorem c5_reweight_floor (total weight oldval newval : ℚ)
    (hfall : newval ≤ oldval) (hpos : 0 < total) :
    MotifReweight total weight oldval newval =
      (if MOTIF_MIN_FRAC < MOTIF_ALPHA * weight / total then MOTIF_ALPHA * weight
       else weight) ∧
    (weight = total / 1000000 →
      MotifReweight total weight oldval newval = weight) := by
  constructor
  · unfold MotifReweight
    rw [if_neg (not_lt.mpr hfall)]
    simp only [mul_comm weight MOTIF_ALPHA]
  · intro hw
    subst hw
    unfold MotifReweight
    rw [if_neg (not_lt.mpr hfall)]
    have hne : total ≠ 0 := ne_of_gt hpos
    have h2 : total / 1000000 * MOTIF_ALPHA / total = 8 / 10000000 := by
      field_simp [MOTIF_ALPHA]
      ring
    simp only [h2]
    norm_num [MOTIF_MIN_FRAC]

/-- Witness for C5 at `total = 1`, `weight = 1/1000000`,
`oldval = 1`, `newval = 0`. -/
theorem c5_reweight_floor_witness :
    (0 : ℚ) ≤ 1 ∧ (0 : ℚ) < 1 ∧
    MotifReweight 1 (1 / 1000000) 1 0 = 1 / 1000000 := by
  refine ⟨by norm_num, by norm_num, ?_⟩
  exact (c5_reweight_floor 1 (1 / 1000000) 1 0 (by norm_num) (by norm_num)).2
    (by norm_num)

/-- `GetValueIndex` from `weighted-objectives.cc`: the index returned
by `std::lower_bound` on the sorted `values`, i.e. the first position
whose entry is not lexicographically below `now` (`<` is the
`vector<uint8>` lexicographic order); written as the equivalent linear
scan. -/
def GetValueIndex (values : List (List ℕ)) (now : List ℕ) : ℕ :=
  match values with
  | [] => 0
  | v :: rest => if v < now then GetValueIndex rest now + 1 else 0

/-- `GetValueFrac`: `GetValueIndex / values.size()` as a `double`.
When `values` is empty the C++ computes `0.0 / 0`, an IEEE `NaN` (not a
real number); that case is `none`. -/
def GetValueFrac (values : List (List ℕ)) (now : List ℕ) : Option ℚ :=
  if values.length = 0 then none
  else some ((GetValueIndex values now : ℚ) / (values.length : ℚ))

/-- The accumulation loop of `WeightedObjectives::GetNormalizedValue`:
`sum += GetValueFrac(info.observations, cur)` over the collection, with
`NaN` propagation as `none`. -/
def sumFracs (mem : Mem) : List WObjective → Option ℚ
  | [] => some 0
  | o :: rest =>
    (GetValueFrac o.observations (projValues o.indices mem)).bind fun f =>
      (sumFracs mem rest).map fun s => f + s

/-- `WeightedObjectives::GetNormalizedValue`: the accumulated sum
divided by the number of objectives (`0/0`, a `NaN`, when the
collection is empty). -/
def GetNormalizedValue (objs : List WObjective) (mem : Mem) : Option ℚ :=
  if objs.length = 0 then none
  else (sumFracs mem objs).map fun s => s / (objs.length : ℚ)

theorem GetValueIndex_le (values : List (List ℕ)) (now : List ℕ) :
    GetValueIndex values now ≤ values.length := by
  induction values with
  | nil => simp [GetValueIndex]
  | cons v rest ih =>
    unfold GetValueIndex
    split
    · simpa using ih
    · simp

theorem GetValueFrac_bounds (values : List (List ℕ)) (now : List ℕ)
    (h : values ≠ []) :
    ∃ q, GetValueFrac values now = some q ∧ 0 ≤ q ∧ q ≤ 1 := by
  have hlen : 0 < values.length := List.length_pos.mpr h
  refine ⟨(GetValueIndex values now : ℚ) / (values.length : ℚ), ?_, ?_, ?_⟩
  · unfold GetValueFrac
    rw [if_neg (by omega)]
  · positivity
  · rw [div_le_one (by exact_mod_cast hlen)]
    exact_mod_cast GetValueIndex_le values now

theorem sumFracs_bounds (mem : Mem) (objs : List WObjective)
    (h : ∀ o ∈ objs, o.observations ≠ []) :
    ∃ s, sumFracs mem objs = some s ∧ 0 ≤ s ∧ s ≤ (objs.length : ℚ) := by
  induction objs with
  | nil => exact ⟨0, rfl, le_refl 0, by simp⟩
  | cons o rest ih =>
    obtain ⟨f, hf, hf0, hf1⟩ :=
      GetValueFrac_bounds o.observations (projValues o.indices mem)
        (h o (List.mem_cons_self o rest))
    obtain ⟨s, hs, hs0, hsn⟩ := ih (fun o' ho' => h o' (List.mem_cons_of_mem o ho'))
    refine ⟨f + s, ?_, by positivity, ?_⟩
    · simp [sumFracs, hf, hs, add_comm]
    · calc f + s ≤ 1 + (rest.length : ℚ) := by gcongr
        _ ≤ ((o :: rest).length : ℚ) := by push_cast [List.length_cons]; linarith

/-- C8 (amended): for a non-empty objective collection in which every
objective has at least one recorded observation, `normalized_value(m)`
is a rational in the closed interval `[0, 1]` (the average over
objectives of the lower-bound insertion index divided by the history
size); with an empty collection or any empty history, the C++ divides
by zero and yields `NaN` instead. -/
theorem c8_normalized_value_range (objs : List WObjective) (mem : Mem)
    (hne : objs ≠ []) (hobs : ∀ o ∈ objs, o.observations ≠ []) :
    ∃ q, GetNormalizedValue objs mem = some q ∧ 0 ≤ q ∧ q ≤ 1 := by
  have hlen : 0 < objs.length := List.length_pos.mpr hne
  obtain ⟨s, hs, hs0, hsn⟩ := sumFracs_bounds mem objs hobs
  refine ⟨s / (objs.length : ℚ), ?_, by positivity, ?_⟩
  · unfold GetNormalizedValue
    rw [if_neg (by omega), hs]
    rfl
  · rw [div_le_one (by exact_mod_cast hlen)]
    exact hsn

/-- Witness for C8 (amended) at a single objective `[0]` with history
`[[5]]` and memory constantly 7. -/
theorem c8_normalized_value_range_witness :
    ∃ q, GetNormalizedValue [⟨[0], 1, [[5]]⟩] (fun _ => 7) = some q ∧
      0 ≤ q ∧ q ≤ 1 := by
  refine c8_normalized_value_range [⟨[0], 1, [[5]]⟩] (fun _ => 7)
    (List.cons_ne_nil _ _) ?_
  intro o ho
  rw [List.mem_singleton] at ho
  subst ho
  exact List.cons_ne_nil _ _

/-- Counterexample for C8 as stated: with one objective whose history
is empty (the state of a freshly loaded collection), the C++
`GetValueFrac` computes `0.0 / 0`, a `NaN`; no real number in `[0, 1]`
is returned. -/
theorem c8_normalized_value_range_counterexample :
    GetNormalizedValue [⟨[0], 1, []⟩] (fun _ => 0) = none ∧
    ¬ ∃ q, GetNormalizedValue [⟨[0], 1, []⟩] (fun _ => 0) = some q ∧
      0 ≤ q ∧ q ≤ 1 := by
  constructor
  · rfl
  · rintro ⟨q, hq, -, -⟩
    rw [show GetNormalizedValue [⟨[0], 1, []⟩] (fun _ => 0) = none from rfl] at hq
    exact Option.noConfusion hq

/-- `CHECKPOINT_EVERY` from `playfun.cc`. -/
def CHECKPOINT_EVERY : ℕ := 100

/-- `OBSERVE_EVERY` from `playfun.cc`. -/
def OBSERVE_EVERY : ℕ := 10

/-- The player state touched by `PlayFun::Commit`: the committed
movie, the parallel subtitles, the watermark, the checkpoints (only
their `movenum` matters here; the opaque emulator savestate is
elided) and the number of recorded memory observations (the opaque
memory contents are elided). -/
structure PState where
  movie : List ℕ
  subtitles : List String
  watermark : ℕ
  checkpoints : List ℕ
  observations : ℕ

/-- `PlayFun::Commit`: play the input, append it to the movie and the
message to the subtitles; below the watermark or the fastforward point
return early, otherwise push a checkpoint every `CHECKPOINT_EVERY`
inputs past the fastforward point and record a memory observation
every `OBSERVE_EVERY` inputs. -/
def Commit (ff : ℕ) (st : PState) (input : ℕ) (message : String) : PState :=
  let st1 := { st with movie := st.movie ++ [input],
                       subtitles := st.subtitles ++ [message] }
  if st1.movie.length < st1.watermark ∨ st1.movie.length < ff then st1
  else
    let inputs := st1.movie.length - ff
    let st2 := if inputs % CHECKPOINT_EVERY = 0 then
                 { st1 with checkpoints := st1.checkpoints ++ [st1.movie.length] }
               else st1
    if inputs % OBSERVE_EVERY = 0 then
      { st2 with observations := st2.observations + 1 }
    else st2

/-- First warmup loop of the `PlayFun` constructor: commit the leading
zero inputs of the recorded movie (`Commit` then `watermark++` per
input), returning the state and the uncommitted tail.  The source
checks `solution[start] == 0` before the bounds check; the list
recursion checks the bound first, which agrees whenever no
out-of-bounds read happens. -/
def warmupZeros (ff : ℕ) : PState → List ℕ → PState × List ℕ
  | st, [] => (st, [])
  | st, x :: rest =>
    if x = 0 then
      let st1 := Commit ff st x "warmup"
      warmupZeros ff { st1 with watermark := st1.watermark + 1 } rest
    else (st, x :: rest)

/-- Second warmup loop of the `PlayFun` constructor: keep committing
(`Commit` then `watermark++`) while fewer than `fastforward` inputs
have been consumed (`start`, the number of inputs consumed so far,
equals the movie length during warmup). -/
def warmupFfwd (ff : ℕ) : PState → List ℕ → PState
  | st, [] => st
  | st, x :: rest =>
    if st.movie.length < ff then
      let st1 := Commit ff st x "warmup"
      warmupFfwd ff { st1 with watermark := st1.watermark + 1 } rest
    else st

/-- The warmup performed by the `PlayFun` constructor, from the empty
state. -/
def PlayFunInit (solution : List ℕ) (ff : ℕ) : PState :=
  let st0 : PState := ⟨[], [], 0, [], 0⟩
  let p := warmupZeros ff st0 solution
  warmupFfwd ff p.1 p.2

/-- Counterexample for C4 as stated: constructing the player with the
recorded movie `[0, 0, 0, 0x08, 0x04]` and `fastforward = 3` does not
give `watermark = 5`, `|movie| = 5`, no observations and no
checkpoints (only the three leading zeros are committed, and the third
commit records both a checkpoint and an observation). -/
theorem c4_warmup_counterexample :
    ¬ ((PlayFunInit [0, 0, 0, 0x08, 0x04] 3).watermark = 5 ∧
       (PlayFunInit [0, 0, 0, 0x08, 0x04] 3).movie.length = 5 ∧
       (PlayFunInit [0, 0, 0, 0x08, 0x04] 3).observations = 0 ∧
       (PlayFunInit [0, 0, 0, 0x08, 0x04] 3).checkpoints = []) := by
  decide

/-- C4 (amended): constructing the player with recorded movie
`[0, 0, 0, 0x08, 0x04]` and `fastforward = 3` commits exactly the three
leading zeros: `watermark = 3`, movie `[0, 0, 0]`, and — because the
third commit is exactly at the fastforward point — one recorded memory
observation and one checkpoint, at `movenum = 3`. -/
theorem c4_warmup_state :
    (PlayFunInit [0, 0, 0, 0x08, 0x04] 3).watermark = 3 ∧
    (PlayFunInit [0, 0, 0, 0x08, 0x04] 3).movie = [0, 0, 0] ∧
    (PlayFunInit [0, 0, 0, 0x08, 0x04] 3).observations = 1 ∧
    (PlayFunInit [0, 0, 0, 0x08, 0x04] 3).checkpoints = [3] := by
  refine ⟨by decide, by decide, by decide, by decide⟩

/-- Tail of `PlayFun::InnerLoop`: sort the per-future integral scores
ascending (`std::sort`) and fold `future_score = future_score/2 +
s/2` over them starting from `future_score = 0`. -/
def futuresScoreAgg (integrals : List ℚ) : ℚ :=
  (List.insertionSort (· ≤ ·) integrals).foldl (fun agg s => agg / 2 + s / 2) 0

/-- The per-next round score of `PlayFun::ParallelStep`:
`immediate_score + future_score`. -/
def roundScore (immediate : ℚ) (integrals : List ℚ) : ℚ :=
  immediate + futuresScoreAgg integrals

/-- The selection loop of `PlayFun::ParallelStep`: scan the scores,
starting from `best_score = 0` and `best_next_idx = 0`, updating both
on a strict improvement (`score > best_score`). -/
def selectLoop : List ℚ → ℕ → ℕ → ℚ → ℕ × ℚ
  | [], _, bi, bs => (bi, bs)
  | s :: rest, i, bi, bs =>
    if bs < s then selectLoop rest (i + 1) i s
    else selectLoop rest (i + 1) bi bs

/-- The index committed by `PlayFun::ParallelStep` for one round,
abstracting each candidate next by its immediate score and its list of
per-future integral scores (both produced by the opaque emulator). -/
def parallelStepChoice (cands : List (ℚ × List ℚ)) : ℕ :=
  (selectLoop (cands.map fun c => roundScore c.1 c.2) 0 0 0).1

theorem selectLoop_best_ge (l : List ℚ) (i bi : ℕ) (bs : ℚ) :
    bs ≤ (selectLoop l i bi bs).2 ∧ ∀ s ∈ l, s ≤ (selectLoop l i bi bs).2 := by
  induction l generalizing i bi bs with
  | nil => simp [selectLoop]
  | cons s rest ih =>
    unfold selectLoop
    split
    · rename_i hlt
      obtain ⟨h1, h2⟩ := ih (i + 1) i s
      exact ⟨le_of_lt (lt_of_lt_of_le hlt h1),
        by intro t ht; rcases List.mem_cons.mp ht with h | h
           · exact h ▸ h1
           · exact h2 t h⟩
    · rename_i hge
      obtain ⟨h1, h2⟩ := ih (i + 1) bi bs
      exact ⟨h1,
        by intro t ht; rcases List.mem_cons.mp ht with h | h
           · exact h ▸ le_trans (not_lt.mp hge) h1
           · exact h2 t h⟩

theorem selectLoop_result (l : List ℚ) (i bi : ℕ) (bs : ℚ) :
    ((selectLoop l i bi bs).1 = bi ∧ (selectLoop l i bi bs).2 = bs) ∨
    ∃ j, j < l.length ∧ (selectLoop l i bi bs).1 = i + j ∧
      l.getD j 0 = (selectLoop l i bi bs).2 := by
  induction l generalizing i bi bs with
  | nil => exact Or.inl ⟨rfl, rfl⟩
  | cons s rest ih =>
    unfold selectLoop
    split
    · rcases ih (i + 1) i s with ⟨h1, h2⟩ | ⟨j, hj, h1, h2⟩
      · exact Or.inr ⟨0, by simp, by simpa using h1, by simpa using h2.symm⟩
      · exact Or.inr ⟨j + 1, by simpa using hj, by rw [h1]; omega,
          by simpa using h2⟩
    · rcases ih (i + 1) bi bs with ⟨h1, h2⟩ | ⟨j, hj, h1, h2⟩
      · exact Or.inl ⟨h1, h2⟩
      · exact Or.inr ⟨j + 1, by simpa using hj, by rw [h1]; omega,
          by simpa using h2⟩

theorem selectLoop_no_update (l : List ℚ) (i bi : ℕ) (bs : ℚ)
    (h : ∀ s ∈ l, s ≤ bs) : selectLoop l i bi bs = (bi, bs) := by
  induction l generalizing i with
  | nil => rfl
  | cons s rest ih =>
    unfold selectLoop
    rw [if_neg (not_lt.mpr (h s (List.mem_cons_self s rest)))]
    exact ih (i + 1) (fun t ht => h t (List.mem_cons_of_mem s ht))

/-- C1 (amended): whenever some candidate next's round score
(immediate score plus the ascending-sorted half-fold aggregate of the
per-future integral scores) is strictly positive — `best_score` starts
at 0, not at `-∞` — the committed next is one of maximal round score;
when every candidate's round score is at most 0, the first candidate is
committed regardless of its score.  The committed index is always in
range. -/
theorem c1_select_best (cands : List (ℚ × List ℚ)) (hne : cands ≠ []) :
    parallelStepChoice cands < cands.length ∧
    ((∃ c ∈ cands, 0 < roundScore c.1 c.2) →
      ∀ j < cands.length,
        (cands.map fun c => roundScore c.1 c.2).getD j 0 ≤
          (cands.map fun c => roundScore c.1 c.2).getD (parallelStepChoice cands) 0) ∧
    ((∀ c ∈ cands, roundScore c.1 c.2 ≤ 0) → parallelStepChoice cands = 0) := by
  set scores := cands.map fun c => roundScore c.1 c.2 with hscores
  have hslen : scores.length = cands.length := List.length_map _ _
  have hlen : 0 < cands.length := List.length_pos.mpr hne
  refine ⟨?_, ?_, ?_⟩
  · rcases selectLoop_result scores 0 0 0 with ⟨h1, -⟩ | ⟨j, hj, h1, -⟩
    · unfold parallelStepChoice
      rw [← hscores, h1]
      exact hlen
    · unfold parallelStepChoice
      rw [← hscores, h1]
      omega
  · rintro ⟨c, hc, hpos⟩ j hj
    have hmem : roundScore c.1 c.2 ∈ scores := List.mem_map_of_mem _ hc
    obtain ⟨-, hall⟩ := selectLoop_best_ge scores 0 0 0
    have hbig : 0 < (selectLoop scores 0 0 0).2 :=
      lt_of_lt_of_le hpos (hall _ hmem)
    rcases selectLoop_result scores 0 0 0 with ⟨-, h2⟩ | ⟨k, hk, h1, h2⟩
    · rw [h2] at hbig
      exact absurd hbig (lt_irrefl 0)
    · unfold parallelStepChoice
      rw [← hscores, h1]
      simp only [Nat.zero_add]
      rw [h2]
      have : scores.getD j 0 ∈ scores := by
        rw [List.getD_eq_getElem scores 0 (by omega)]
        exact List.getElem_mem _
      exact hall _ this
  · intro hall
    have h : ∀ s ∈ scores, s ≤ 0 := by
      intro s hs
      obtain ⟨c, hc, rfl⟩ := List.mem_map.mp hs
      exact hall c hc
    unfold parallelStepChoice
    rw [← hscores, selectLoop_no_update scores 0 0 0 h]

/-- Witness for C1 (amended) at the single candidate with immediate
score 1 and one future integral score 0. -/
theorem c1_select_best_witness :
    parallelStepChoice [((1 : ℚ), [(0 : ℚ)])] < 1 :=
  (c1_select_best [((1 : ℚ), [(0 : ℚ)])] (List.cons_ne_nil _ _)).1

/-- Counterexample for C1 as stated: two candidate nexts with round
scores `-5` and `-1` (all nonpositive).  Since `best_score` is
initialized to 0, the loop never updates and commits index 0, whose
round score `-5` is not maximal (`-1` is larger). -/
theorem c1_select_best_counterexample :
    parallelStepChoice [((-5 : ℚ), [(0 : ℚ)]), ((-1 : ℚ), [(0 : ℚ)])] = 0 ∧
    roundScore (-5) [0] < roundScore (-1) [0] := by
  constructor
  · have h5 : roundScore (-5) [0] = -5 := by
      norm_num [roundScore, futuresScoreAgg, List.insertionSort]
    have h1 : roundScore (-1) [0] = -1 := by
      norm_num [roundScore, futuresScoreAgg, List.insertionSort]
    unfold parallelStepChoice
    rw [List.map_cons, List.map_cons, List.map_nil]
    simp only [h5, h1]
    unfold selectLoop
    norm_num
    rfl
  · norm_num [roundScore, futuresScoreAgg, List.insertionSort]

/-- One pass of the culling loop in `PlayFun::TakeBestAmong`: scan
`futuretotals[0 .. futures.size())` with `worst_total = futuretotals[0]`,
`worst_idx = 0`, updating on `worst_total < futuretotals[i]` (the same
loop shape as `selectLoop`), then swap-remove that index from the
futures (and mirror the swap in the totals, which are not resized).
Futures are abstracted by a label. -/
def dropOne (futures : List ℕ) (totals : List ℚ) : List ℕ × List ℚ :=
  let n := futures.length
  let wi := (selectLoop ((totals.take n).drop 1) 1 0 (totals.getD 0 0)).1
  if wi ≠ n - 1 then
    ((futures.set wi (futures.getD (n - 1) 0)).take (n - 1),
     totals.set wi (totals.getD (n - 1) 0))
  else (futures.take (n - 1), totals)

/-- The `TOTAL_TO_DROP` iterations of the culling loop in
`PlayFun::TakeBestAmong`. -/
def dropWorst : ℕ → List ℕ × List ℚ → List ℕ × List ℚ
  | 0, p => p
  | t + 1, p => dropWorst t (dropOne p.1 p.2)

/-- C3 evaluated at the failing input: three futures labelled 0, 1, 2
with accumulated totals 1, 2, 3 and two to drop.  The scan updates on
`worst_total < futuretotals[i]`, so it removes the futures with the
*largest* totals (3, then 2): the single survivor is future 0, whose
total 1 is strictly below the totals of both removed futures —
contradicting "every removed future's total is less than or equal to
every surviving future's total". -/
theorem c3_drop_highest_total :
    (dropWorst 2 ([0, 1, 2], [1, 2, 3])).1 = [0] ∧
    ¬ (([1, 2, 3] : List ℚ).getD 1 0 ≤ ([1, 2, 3] : List ℚ).getD 0 0) := by
  constructor
  · decide
  · norm_num

/-- `PlayFun::ReverseRange`: copy the vector, then write
`vnew[i] = v[(start + len - 1) - i]` for `i < len` — note the write
index is `i`, not `start + i`. -/
def ReverseRange (v : List ℕ) (start len : ℕ) : List ℕ :=
  (List.range v.length).map fun i =>
    if i < len then v.getD (start + len - 1 - i) 0 else v.getD i 0

/-- C9 evaluated at the failing input `v = [10, 20, 30]`, `start = 1`,
`len = 2`: because the reversed span is written at offset 0 instead of
offset `start`, one application yields `[30, 20, 30]`, and a second
application leaves `[30, 20, 30]` — not the original vector, so
reversing a range twice is not the identity. -/
theorem c9_reverse_not_involution :
    ReverseRange [10, 20, 30] 1 2 = [30, 20, 30] ∧
    ReverseRange (ReverseRange [10, 20, 30] 1 2) 1 2 = [30, 20, 30] ∧
    ([30, 20, 30] : List ℕ) ≠ [10, 20, 30] := by
  refine ⟨by decide, by decide, by decide⟩

/-- `RandomDouble` from `util.h`: a uniform 32-bit integer divided by
`0xFFFFFFFF`, so both endpoints 0 and 1 are attainable. -/
def RandomDouble (r : ℕ) : ℚ := (r : ℚ) / 4294967295

/-- `PlayFun::GetRandomSpan`: for an empty vector return the span
`(0, 0)`; otherwise draw `d = RandomDouble^exponent`, set
`len = (int)(d * (size - 1)) + 1` and
`start = (int)(RandomDouble * (size - len))` (the casts truncate the
nonnegative doubles, i.e. take floors; `size - len` is `size_t`
subtraction). The call sites use `exponent = 2`. -/
def GetRandomSpan (inputs : List ℕ) (e r1 r2 : ℕ) : ℕ × ℕ :=
  if inputs.length = 0 then (0, 0)
  else
    let d : ℚ := RandomDouble r1 ^ e
    let len : ℕ := (Int.floor (d * ((inputs.length : ℚ) - 1))).toNat + 1
    let start : ℕ :=
      (Int.floor (RandomDouble r2 * ((inputs.length - len : ℕ) : ℚ))).toNat
    (start, len)

theorem RandomDouble_mem_unit (r : ℕ) (h : r ≤ 4294967295) :
    0 ≤ RandomDouble r ∧ RandomDouble r ≤ 1 := by
  constructor
  · unfold RandomDouble
    positivity
  · unfold RandomDouble
    rw [div_le_one (by norm_num)]
    exact_mod_cast h

/-- C10: `GetRandomSpan` always yields an in-bounds span.  For a
non-empty input vector and any pair of 32-bit draws (including the
extremes, since `RandomDouble` can return exactly 0 and exactly 1)
the result satisfies `1 ≤ len ≤ |inputs|` and
`start + len ≤ |inputs|`; for an empty vector it returns
`start = len = 0`.  Hence the span operations never index out of
bounds. -/
theorem c10_random_span (inputs : List ℕ) (e r1 r2 : ℕ)
    (h1 : r1 ≤ 4294967295) (h2 : r2 ≤ 4294967295) :
    (inputs = [] → GetRandomSpan inputs e r1 r2 = (0, 0)) ∧
    (inputs ≠ [] →
      1 ≤ (GetRandomSpan inputs e r1 r2).2 ∧
      (GetRandomSpan inputs e r1 r2).2 ≤ inputs.length ∧
      (GetRandomSpan inputs e r1 r2).1 + (GetRandomSpan inputs e r1 r2).2 ≤
        inputs.length) := by
  constructor
  · intro he
    unfold GetRandomSpan
    rw [if_pos (by simp [he])]
  · intro hne
    have hm : 1 ≤ inputs.length := List.length_pos.mpr hne
    obtain ⟨hd0, hd1⟩ := RandomDouble_mem_unit r1 h1
    obtain ⟨he0, he1⟩ := RandomDouble_mem_unit r2 h2
    have hpow0 : 0 ≤ RandomDouble r1 ^ e := pow_nonneg hd0 e
    have hpow1 : RandomDouble r1 ^ e ≤ 1 := pow_le_one₀ hd0 hd1
    have hflen : (Int.floor (RandomDouble r1 ^ e *
        ((inputs.length : ℚ) - 1))).toNat + 1 ≤ inputs.length := by
      have hb : RandomDouble r1 ^ e * ((inputs.length : ℚ) - 1) ≤
          ((inputs.length - 1 : ℕ) : ℚ) := by
        have h1m : ((inputs.length : ℚ) - 1) = ((inputs.length - 1 : ℕ) : ℚ) := by
          push_cast [hm]
          ring
        rw [h1m]
        exact mul_le_of_le_one_left (by positivity) hpow1
      have hfl : Int.floor (RandomDouble r1 ^ e * ((inputs.length : ℚ) - 1)) ≤
          ((inputs.length - 1 : ℕ) : ℤ) := by
        calc Int.floor (RandomDouble r1 ^ e * ((inputs.length : ℚ) - 1)) ≤
            Int.floor (((inputs.length - 1 : ℕ) : ℚ)) := Int.floor_mono hb
          _ = ((inputs.length - 1 : ℕ) : ℤ) := Int.floor_natCast _
      have := Int.toNat_le.mpr hfl
      omega
    have hspan : ∀ len : ℕ, len ≤ inputs.length →
        (Int.floor (RandomDouble r2 * ((inputs.length - len : ℕ) : ℚ))).toNat +
          len ≤ inputs.length := by
      intro len hlm
      have hb : RandomDouble r2 * ((inputs.length - len : ℕ) : ℚ) ≤
          ((inputs.length - len : ℕ) : ℚ) :=
        mul_le_of_le_one_left (by positivity) he1
      have hfl : Int.floor (RandomDouble r2 * ((inputs.length - len : ℕ) : ℚ)) ≤
          ((inputs.length - len : ℕ) : ℤ) := by
        calc Int.floor (RandomDouble r2 * ((inputs.length - len : ℕ) : ℚ)) ≤
            Int.floor (((inputs.length - len : ℕ) : ℚ)) := Int.floor_mono hb
          _ = ((inputs.length - len : ℕ) : ℤ) := Int.floor_natCast _
      have := Int.toNat_le.mpr hfl
      omega
    have hgr : GetRandomSpan inputs e r1 r2 =
        ((Int.floor (RandomDouble r2 *
            ((inputs.length - ((Int.floor (RandomDouble r1 ^ e *
              ((inputs.length : ℚ) - 1))).toNat + 1) : ℕ) : ℚ))).toNat,
         (Int.floor (RandomDouble r1 ^ e * ((inputs.length : ℚ) - 1))).toNat + 1) := by
      unfold GetRandomSpan
      rw [if_neg (by omega)]
    rw [hgr]
    exact ⟨Nat.le_add_left 1 _, hflen,
      hspan ((Int.floor (RandomDouble r1 ^ e *
        ((inputs.length : ℚ) - 1))).toNat + 1) hflen⟩

/-- Witness for C10 at `inputs = [1, 2, 3]`, `exponent = 2` and the
extreme draws `r1 = 0xFFFFFFFF` (so `RandomDouble = 1`), `r2 = 0`. -/
theorem c10_random_span_witness :
    (4294967295 : ℕ) ≤ 4294967295 ∧
    1 ≤ (GetRandomSpan [1, 2, 3] 2 4294967295 0).2 ∧
    (GetRandomSpan [1, 2, 3] 2 4294967295 0).1 +
      (GetRandomSpan [1, 2, 3] 2 4294967295 0).2 ≤ 3 := by
  have h := (c10_random_span [1, 2, 3] 2 4294967295 0 (by norm_num)
    (by norm_num)).2 (List.cons_ne_nil _ _)
  exact ⟨le_refl _, h.1, h.2.2⟩

/-- The `%f` conversion used by `WeightedObjectives::SaveToFile` when
printing a weight: the decimal value with 6 fractional digits, i.e.
the weight rounded to the nearest multiple of `10⁻⁶` (ties as in
`printf` are irrelevant to the theorems below, which avoid exact
ties). -/
def round6 (w : ℚ) : ℚ := ((Int.floor (w * 1000000 + 1 / 2) : ℤ) : ℚ) / 1000000

/-- `LoadFromFile ∘ SaveToFile` on an objective collection
(represented by its weight/tuple association list): `SaveToFile` emits
one `"%f <idx>+"` line per objective of weight strictly greater than 0
and `LoadFromFile` parses every line back, so the composite keeps the
positive-weight objectives with their weights rounded by the `%f`
format. -/
def SaveThenLoad (objs : List (ℚ × List ℕ)) : List (ℚ × List ℕ) :=
  (objs.filter fun o => 0 < o.1).map fun o => (round6 o.1, o.2)

/-- Counterexample for C6 as stated: the collection
`{(1/3, [0]), (-1, [1])}`.  Removing only the weight-0 objectives
would keep both entries unchanged, but the save/load composite drops
the negative-weight entry (save keeps only weights `> 0`) and rounds
`1/3` to the 6-decimal value `0.333333` — so the surviving weight is
not preserved exactly. -/
theorem c6_roundtrip_counterexample :
    SaveThenLoad [((1 : ℚ) / 3, [0]), (-1, [1])] =
      [((333333 : ℚ) / 1000000, [0])] ∧
    SaveThenLoad [((1 : ℚ) / 3, [0]), (-1, [1])] ≠
      ([((1 : ℚ) / 3, [0]), (-1, [1])].filter fun o => ¬ (o.1 = 0)) := by
  have hf : Int.floor ((1 : ℚ) / 3 * 1000000 + 1 / 2) = 333333 := by
    rw [Int.floor_eq_iff]
    constructor <;> norm_num
  have hsl : SaveThenLoad [((1 : ℚ) / 3, [0]), (-1, [1])] =
      [((333333 : ℚ) / 1000000, [0])] := by
    unfold SaveThenLoad
    rw [List.filter_cons, List.filter_cons, List.filter_nil]
    norm_num [round6, hf]
  refine ⟨hsl, ?_⟩
  rw [hsl, List.filter_cons, List.filter_cons, List.filter_nil]
  norm_num

/-- C6 (amended): `load(save(obj))` equals `obj` with the objectives
of non-positive weight removed and every surviving weight replaced by
its 6-decimal `%f` rendering: the count matches the positive-weight
filter, every loaded entry comes from a positive-weight original with
the same index tuple and the rounded weight, every positive-weight
original survives, and a weight that is already an integer multiple of
`10⁻⁶` round-trips exactly. -/
theorem c6_roundtrip_rounded (objs : List (ℚ × List ℕ)) :
    (SaveThenLoad objs).length = (objs.filter fun o => 0 < o.1).length ∧
    (∀ p ∈ SaveThenLoad objs,
      ∃ o ∈ objs, 0 < o.1 ∧ p.2 = o.2 ∧ p.1 = round6 o.1) ∧
    (∀ o ∈ objs, 0 < o.1 → (round6 o.1, o.2) ∈ SaveThenLoad objs) ∧
    (∀ w : ℚ, (w * 1000000).den = 1 → round6 w = w) := by
  refine ⟨List.length_map _ _, ?_, ?_, ?_⟩
  · intro p hp
    obtain ⟨o, ho, rfl⟩ := List.mem_map.mp hp
    rw [List.mem_filter] at ho
    exact ⟨o, ho.1, by simpa using ho.2, rfl, rfl⟩
  · intro o ho hw
    exact List.mem_map_of_mem _ (List.mem_filter.mpr ⟨ho, by simpa using hw⟩)
  · intro w hden
    have hk : (((w * 1000000).num : ℤ) : ℚ) = w * 1000000 :=
      (Rat.den_eq_one_iff _).mp hden
    unfold round6
    rw [← hk, Int.floor_int_add, show Int.floor ((1 : ℚ) / 2) = 0 by
      rw [Int.floor_eq_iff]; norm_num]
    rw [add_zero, hk]
    field_simp

end Tasbot
